import Mathlib

/-!
Verification development for a two-script repository:
`fetch_data.py` (paginated Binance kline fetcher) and `concat_data.py`
(alignment of per-symbol CSV series into one closing-price table).

The fetcher's pagination loop is embedded as a structural recursion over
the sequence of page responses the remote endpoint returns; the batch
driver is embedded as a fold producing an event trace and a rate-limit
counter.  The aligner is embedded over a list of modeled CSV files.
Timestamps are natural numbers (ms epoch); prices are integers.
-/

/-- One kline row.  The Python loop only inspects `candles[-1][0]` (the open
time) of each row; the remaining fields travel along untouched, represented
here by the close price. -/
structure Kline where
  ts : Nat
  close : Int
deriving DecidableEq, Repr

/-- One HTTP page response: either a non-success status carrying the raw
response body (`response.text`), or a JSON array of klines. -/
inductive PageResp where
  | fail (body : String)
  | ok (candles : List Kline)
deriving DecidableEq, Repr

/-- `candles[-1][0]`: the open time of the last row of a page (0 on an empty
page; only ever used on non-empty pages). -/
def lastTs (l : List Kline) : Nat := (l.getLast?.map Kline.ts).getD 0

/-- The `while True` pagination loop of `fetch_binance_data`
(src/fetch_data.py lines 28-39), run against the sequence of page responses
the endpoint produces.  Returns the list of `startTime` bounds of the
requests issued, together with the accumulated data (or the raised error).
Running off the end of the response list behaves like an empty response. -/
def fetchLoop (limit : Nat) : List PageResp → Nat → List Kline →
    List Nat × Except String (List Kline)
  | [], start, data => ([start], .ok data)
  | PageResp.fail body :: _, start, _ =>
      ([start], .error ("Error fetching data: " ++ body))
  | PageResp.ok [] :: _, start, data => ([start], .ok data)
  | PageResp.ok (c :: cs) :: rest, start, data =>
      let data2 := data ++ (c :: cs)
      let nextStart := lastTs (c :: cs) + 1
      if (c :: cs).length < limit then ([start], .ok data2)
      else
        let r := fetchLoop limit rest nextStart data2
        (start :: r.1, r.2)

/-- `fetch_binance_data`: the DataFrame finally returned (as its list of
rows), or the raised exception. -/
def fetch_binance_data (pages : List PageResp) (startTime limit : Nat) :
    Except String (List Kline) :=
  (fetchLoop limit pages startTime []).2

/-- The `startTime` bounds of the page requests `fetch_binance_data`
issues, in order. -/
def fetchRequests (pages : List PageResp) (startTime limit : Nat) : List Nat :=
  (fetchLoop limit pages startTime []).1

/-- Strictly increasing list of naturals (timestamp column). -/
def strictIncB : List Nat → Bool
  | [] => true
  | [_] => true
  | a :: b :: t => decide (a < b) && strictIncB (b :: t)

/-- The remote endpoint honours the kline contract: each page is sorted
strictly increasing and starts no earlier than the `startTime` bound of the
request that produced it, where the request bounds advance exactly as the
loop advances them (`candles[-1][0] + 1`). -/
def honestPagesB : Nat → List (List Kline) → Bool
  | _, [] => true
  | start, p :: rest =>
      strictIncB (p.map Kline.ts) && p.all (fun k => decide (start ≤ k.ts)) &&
      honestPagesB (lastTs p + 1) rest

lemma strictIncB_cons_lt {a : Nat} {l : List Nat} (h : strictIncB (a :: l) = true) :
    ∀ x ∈ l, a < x := by
  induction l generalizing a with
  | nil => intro x hx; cases hx
  | cons b t ih =>
    simp only [strictIncB, Bool.and_eq_true, decide_eq_true_eq] at h
    intro x hx
    rcases List.mem_cons.mp hx with rfl | hx
    · exact h.1
    · exact lt_trans h.1 (ih h.2 x hx)

lemma strictIncB_tail {a : Nat} {l : List Nat} (h : strictIncB (a :: l) = true) :
    strictIncB l = true := by
  cases l with
  | nil => rfl
  | cons b t =>
    simp only [strictIncB, Bool.and_eq_true] at h
    exact h.2

lemma strictIncB_nodup {l : List Nat} (h : strictIncB l = true) : l.Nodup := by
  induction l with
  | nil => exact List.nodup_nil
  | cons a t ih =>
    refine List.nodup_cons.mpr ⟨fun hmem => ?_, ih (strictIncB_tail h)⟩
    exact lt_irrefl a (strictIncB_cons_lt h a hmem)

lemma strictIncB_append {l₁ l₂ : List Nat} (h₁ : strictIncB l₁ = true)
    (h₂ : strictIncB l₂ = true) (hlt : ∀ x ∈ l₁, ∀ y ∈ l₂, x < y) :
    strictIncB (l₁ ++ l₂) = true := by
  induction l₁ with
  | nil => simpa using h₂
  | cons a t ih =>
    have ht : strictIncB t = true := strictIncB_tail h₁
    have hrec : strictIncB (t ++ l₂) = true :=
      ih ht (fun x hx y hy => hlt x (List.mem_cons_of_mem a hx) y hy)
    cases t with
    | nil =>
      cases l₂ with
      | nil => rfl
      | cons b u =>
        simp only [List.nil_append, List.cons_append, strictIncB,
          Bool.and_eq_true, decide_eq_true_eq]
        exact ⟨hlt a (List.mem_singleton_self a) b (List.mem_cons_self b u),
          by simpa using hrec⟩
    | cons b u =>
      simp only [List.cons_append, strictIncB, Bool.and_eq_true,
        decide_eq_true_eq] at h₁ ⊢
      exact ⟨h₁.1, by simpa [List.cons_append] using hrec⟩

lemma lastTs_mem {q : List Kline} (hq : q ≠ []) : ∃ k ∈ q, k.ts = lastTs q := by
  refine ⟨q.getLast hq, List.getLast_mem hq, ?_⟩
  simp [lastTs, List.getLast?_eq_getLast q hq]

lemma mem_ts_le_lastTs {q : List Kline} (h : strictIncB (q.map Kline.ts) = true) :
    ∀ k ∈ q, k.ts ≤ lastTs q := by
  induction q with
  | nil => intro k hk; cases hk
  | cons a t ih =>
    intro k hk
    cases t with
    | nil =>
      rcases List.mem_singleton.mp hk with rfl
      simp [lastTs]
    | cons b u =>
      have h' : strictIncB ((b :: u).map Kline.ts) = true :=
        strictIncB_tail (by simpa using h)
      have hlast : lastTs (a :: b :: u) = lastTs (b :: u) := by
        simp [lastTs, List.getLast?]
      rcases List.mem_cons.mp hk with rfl | hk
      · have hab : k.ts < b.ts := by
          have := strictIncB_cons_lt (l := (b :: u).map Kline.ts) (a := k.ts)
            (by simpa using h)
          exact this b.ts (by simp)
        have hb : b.ts ≤ lastTs (b :: u) := ih h' b (List.mem_cons_self b u)
        omega
      · have := ih h' k hk
        omega

lemma honestPages_join {pages : List (List Kline)} {s : Nat}
    (hh : honestPagesB s pages = true) (hne : ∀ p ∈ pages, p ≠ []) :
    (∀ k ∈ pages.flatten, s ≤ k.ts) ∧
      strictIncB ((pages.flatten).map Kline.ts) = true := by
  induction pages generalizing s with
  | nil => exact ⟨fun k hk => by simp at hk, rfl⟩
  | cons p rest ih =>
    simp only [honestPagesB, Bool.and_eq_true, List.all_eq_true,
      decide_eq_true_eq] at hh
    obtain ⟨⟨hinc, hge⟩, hrest⟩ := hh
    have hpne : p ≠ [] := hne p (List.mem_cons_self p rest)
    obtain ⟨ihge, ihinc⟩ :=
      ih hrest (fun q hq => hne q (List.mem_cons_of_mem p hq))
    have hlastge : s ≤ lastTs p := by
      obtain ⟨k, hk, hkts⟩ := lastTs_mem hpne
      exact hkts ▸ hge k hk
    constructor
    · intro k hk
      have hk2 : k ∈ p ++ rest.flatten := by simpa using hk
      rcases List.mem_append.mp hk2 with hkp | hkr
      · exact hge k hkp
      · have : lastTs p + 1 ≤ k.ts := ihge k hkr
        omega
    · have hj : (p :: rest).flatten = p ++ rest.flatten := rfl
      rw [hj, List.map_append]
      refine strictIncB_append hinc ihinc ?_
      intro x hx y hy
      rcases List.mem_map.mp hx with ⟨k, hk, rfl⟩
      rcases List.mem_map.mp hy with ⟨k2, hk2, rfl⟩
      have h1 : k.ts ≤ lastTs p := mem_ts_le_lastTs hinc k hk
      have h2 : lastTs p + 1 ≤ k2.ts := ihge k2 hk2
      omega

lemma fetchLoop_ok_all {limit : Nat} {pages : List (List Kline)}
    (hne : ∀ p ∈ pages, p ≠ [])
    (hfull : ∀ p ∈ pages.dropLast, limit ≤ p.length) :
    ∀ s data, (fetchLoop limit (pages.map PageResp.ok) s data).2 =
      .ok (data ++ pages.flatten) := by
  induction pages with
  | nil => intro s data; simp [fetchLoop]
  | cons p rest ih =>
    intro s data
    have hpne : p ≠ [] := hne p (List.mem_cons_self p rest)
    obtain ⟨c, cs, rfl⟩ := List.exists_cons_of_ne_nil hpne
    by_cases hlen : (c :: cs).length < limit
    · have hrest : rest = [] := by
        by_contra hrest
        have hmem : (c :: cs) ∈ ((c :: cs) :: rest).dropLast := by
          rw [List.dropLast_cons_of_ne_nil hrest]
          exact List.mem_cons_self _ _
        exact absurd (hfull _ hmem) (by omega)
      subst hrest
      simp only [List.map_cons, List.map_nil, fetchLoop]
      split <;> simp
    · simp only [List.map_cons, fetchLoop, if_neg hlen]
      have := ih (fun q hq => hne q (List.mem_cons_of_mem _ hq))
        (fun q hq => hfull q (by
          cases rest with
          | nil => cases hq
          | cons r rs =>
            rw [List.dropLast_cons_of_ne_nil (by simp)]
            exact List.mem_cons_of_mem _ hq))
        (lastTs (c :: cs) + 1) (data ++ (c :: cs))
      rw [this]
      simp

/-- C1: for every sequence of non-empty page responses honouring the kline
contract, `fetch_binance_data` returns exactly the concatenation of the
pages, whose row count is the sum of the page row counts and whose
timestamps are strictly increasing with no duplicates. -/
theorem fetch_series_row_count_strict_mono (pages : List (List Kline))
    (s limit : Nat)
    (hne : ∀ p ∈ pages, p ≠ [])
    (hfull : ∀ p ∈ pages.dropLast, limit ≤ p.length)
    (hh : honestPagesB s pages = true) :
    fetch_binance_data (pages.map PageResp.ok) s limit = .ok pages.flatten ∧
    pages.flatten.length = (pages.map List.length).sum ∧
    strictIncB (pages.flatten.map Kline.ts) = true ∧
    (pages.flatten.map Kline.ts).Nodup := by
  obtain ⟨hge, hinc⟩ := honestPages_join hh hne
  refine ⟨?_, ?_, hinc, strictIncB_nodup hinc⟩
  · have := fetchLoop_ok_all hne hfull s []
    simpa [fetch_binance_data] using this
  · simp [List.length_flatten]

def demoPages : List (List Kline) := [[⟨0, 1⟩, ⟨1, 2⟩], [⟨2, 3⟩]]

theorem fetch_series_row_count_strict_mono_witness :
    fetch_binance_data (demoPages.map PageResp.ok) 0 2 = .ok demoPages.flatten ∧
    demoPages.flatten.length = (demoPages.map List.length).sum ∧
    strictIncB (demoPages.flatten.map Kline.ts) = true ∧
    (demoPages.flatten.map Kline.ts).Nodup :=
  fetch_series_row_count_strict_mono demoPages 0 2 (by decide) (by decide) (by decide)

lemma fetchLoop_cons_full {limit : Nat} {q : List Kline} (hq : q ≠ [])
    (hlen : limit ≤ q.length) (rest : List PageResp) (s : Nat) (data : List Kline) :
    fetchLoop limit (PageResp.ok q :: rest) s data =
      (s :: (fetchLoop limit rest (lastTs q + 1) (data ++ q)).1,
       (fetchLoop limit rest (lastTs q + 1) (data ++ q)).2) := by
  obtain ⟨c, cs, rfl⟩ := List.exists_cons_of_ne_nil hq
  simp only [fetchLoop]
  rw [if_neg (by omega)]

lemma fetchLoop_stop {limit : Nat} {p : List Kline}
    (hp : p = [] ∨ p.length < limit) (rest : List PageResp) (s : Nat)
    (data : List Kline) :
    fetchLoop limit (PageResp.ok p :: rest) s data = ([s], .ok (data ++ p)) := by
  rcases hp with rfl | hlt
  · simp [fetchLoop]
  · cases p with
    | nil => simp [fetchLoop]
    | cons c cs =>
      simp only [List.length_cons] at hlt
      simp only [fetchLoop]
      split
      · rfl
      · rename_i hcond
        simp only [List.length_cons] at hcond
        omega

lemma fetchLoop_full_prefix {limit : Nat} :
    ∀ (a : List (List Kline)) (t1 t2 : List PageResp) (s : Nat) (data : List Kline),
      (∀ q ∈ a, q ≠ [] ∧ limit ≤ q.length) →
      (∀ s2 data2, fetchLoop limit t1 s2 data2 = fetchLoop limit t2 s2 data2) →
      fetchLoop limit (a.map PageResp.ok ++ t1) s data =
        fetchLoop limit (a.map PageResp.ok ++ t2) s data := by
  intro a
  induction a with
  | nil => intro t1 t2 s data _ hteq; simpa using hteq s data
  | cons q a2 ih =>
    intro t1 t2 s data ha hteq
    have hq := ha q (List.mem_cons_self q a2)
    simp only [List.map_cons, List.cons_append]
    rw [fetchLoop_cons_full hq.1 hq.2, fetchLoop_cons_full hq.1 hq.2,
      ih t1 t2 _ _ (fun q2 hq2 => ha q2 (List.mem_cons_of_mem q hq2)) hteq]

lemma fetchLoop_full_reqs_len {limit : Nat} :
    ∀ (a : List (List Kline)) (tail : List PageResp) (s : Nat) (data : List Kline),
      (∀ q ∈ a, q ≠ [] ∧ limit ≤ q.length) →
      (∀ s2 data2, (fetchLoop limit tail s2 data2).1.length = 1) →
      (fetchLoop limit (a.map PageResp.ok ++ tail) s data).1.length = a.length + 1 := by
  intro a
  induction a with
  | nil => intro tail s data _ hlen; simpa using hlen s data
  | cons q a2 ih =>
    intro tail s data ha hlen
    have hq := ha q (List.mem_cons_self q a2)
    simp only [List.map_cons, List.cons_append]
    rw [fetchLoop_cons_full hq.1 hq.2]
    simp only [List.length_cons]
    rw [ih tail _ _ (fun q2 hq2 => ha q2 (List.mem_cons_of_mem q hq2)) hlen]

lemma fetchLoop_full_snd {limit : Nat} (P : Except String (List Kline) → Prop) :
    ∀ (a : List (List Kline)) (tail : List PageResp) (s : Nat) (data : List Kline),
      (∀ q ∈ a, q ≠ [] ∧ limit ≤ q.length) →
      (∀ s2 data2, P (fetchLoop limit tail s2 data2).2) →
      P (fetchLoop limit (a.map PageResp.ok ++ tail) s data).2 := by
  intro a
  induction a with
  | nil => intro tail s data _ hP; simpa using hP s data
  | cons q a2 ih =>
    intro tail s data ha hP
    have hq := ha q (List.mem_cons_self q a2)
    simp only [List.map_cons, List.cons_append]
    rw [fetchLoop_cons_full hq.1 hq.2]
    exact ih tail _ _ (fun q2 hq2 => ha q2 (List.mem_cons_of_mem q hq2)) hP

lemma fetchLoop_requests_fresh {limit : Nat} :
    ∀ (pages : List (List Kline)) (s : Nat) (data : List Kline),
      honestPagesB s pages = true →
      (∀ x ∈ (fetchLoop limit (pages.map PageResp.ok) s data).1, s ≤ x) ∧
      (∀ i, ∀ x ∈ (fetchLoop limit (pages.map PageResp.ok) s data).1.drop i,
        ∀ k ∈ (pages.take i).flatten, k.ts < x) := by
  intro pages
  induction pages with
  | nil =>
    intro s data _
    constructor
    · intro x hx
      simp only [List.map_nil, fetchLoop, List.mem_singleton] at hx
      omega
    · intro i x hx k hk
      simp at hk
  | cons p rest ih =>
    intro s data hh
    simp only [honestPagesB, Bool.and_eq_true, List.all_eq_true,
      decide_eq_true_eq] at hh
    obtain ⟨⟨hinc, hge⟩, hrest⟩ := hh
    by_cases hstop : p = [] ∨ p.length < limit
    · rw [List.map_cons, fetchLoop_stop hstop]
      constructor
      · intro x hx
        rcases List.mem_singleton.mp hx with rfl
        omega
      · intro i x hx k hk
        cases i with
        | zero => simp at hk
        | succ j =>
          simp only [List.drop_succ_cons, List.drop_nil] at hx
          cases hx
    · push_neg at hstop
      obtain ⟨hpne, hplen⟩ := hstop
      rw [List.map_cons, fetchLoop_cons_full hpne (by omega)]
      obtain ⟨ih1, ih2⟩ := ih (lastTs p + 1) (data ++ p) hrest
      have hlastge : s ≤ lastTs p := by
        obtain ⟨k, hk, hkts⟩ := lastTs_mem hpne
        exact hkts ▸ hge k hk
      constructor
      · intro x hx
        rcases List.mem_cons.mp hx with rfl | hx
        · omega
        · have := ih1 x hx
          omega
      · intro i x hx k hk
        cases i with
        | zero => simp at hk
        | succ j =>
          simp only [List.drop_succ_cons] at hx
          have hk2 : k ∈ p ++ (rest.take j).flatten := by
            simpa using hk
          rcases List.mem_append.mp hk2 with hkp | hkr
          · have h1 : k.ts ≤ lastTs p := mem_ts_le_lastTs hinc k hkp
            have h2 : lastTs p + 1 ≤ x := ih1 x (List.drop_subset j _ hx)
            omega
          · exact ih2 j x hx k hkr

/-- C5: the pagination loop stops exactly at the first page with zero rows
or fewer rows than `limit` (later responses are never requested; after full
pages it does issue one more request), and no issued request's start bound
lies within already-covered time: every fetched bar's timestamp is strictly
below the start bound of every later request. -/
theorem fetch_series_termination_requests (limit s : Nat)
    (a : List (List Kline)) (p : List Kline) (rest : List PageResp)
    (ha : ∀ q ∈ a, q ≠ [] ∧ limit ≤ q.length)
    (hp : p = [] ∨ p.length < limit)
    (hh : honestPagesB s (a ++ [p]) = true) :
    fetchLoop limit (a.map PageResp.ok ++ PageResp.ok p :: rest) s [] =
      fetchLoop limit (a.map PageResp.ok ++ [PageResp.ok p]) s [] ∧
    (fetchRequests (a.map PageResp.ok ++ PageResp.ok p :: rest) s limit).length
      = a.length + 1 ∧
    (fetchRequests (a.map PageResp.ok) s limit).length = a.length + 1 ∧
    (∀ i, ∀ x ∈ (fetchRequests (a.map PageResp.ok ++ PageResp.ok p :: rest) s limit).drop i,
      ∀ k ∈ ((a ++ [p]).take i).flatten, k.ts < x) := by
  have heq : fetchLoop limit (a.map PageResp.ok ++ PageResp.ok p :: rest) s [] =
      fetchLoop limit (a.map PageResp.ok ++ [PageResp.ok p]) s [] :=
    fetchLoop_full_prefix a (PageResp.ok p :: rest) [PageResp.ok p] s [] ha
      (fun s2 data2 => by rw [fetchLoop_stop hp, fetchLoop_stop hp])
  refine ⟨heq, ?_, ?_, ?_⟩
  · exact fetchLoop_full_reqs_len a (PageResp.ok p :: rest) s [] ha
      (fun s2 data2 => by rw [fetchLoop_stop hp]; rfl)
  · have : (a.map PageResp.ok ++ ([] : List PageResp)) = a.map PageResp.ok := by simp
    rw [fetchRequests, ← this]
    exact fetchLoop_full_reqs_len a [] s [] ha (fun s2 data2 => by simp [fetchLoop])
  · have hmap : a.map PageResp.ok ++ [PageResp.ok p] = (a ++ [p]).map PageResp.ok := by
      simp
    have h2 : fetchRequests (a.map PageResp.ok ++ PageResp.ok p :: rest) s limit =
        (fetchLoop limit ((a ++ [p]).map PageResp.ok) s []).1 := by
      rw [fetchRequests, heq, hmap]
    rw [h2]
    exact (fetchLoop_requests_fresh (a ++ [p]) s [] hh).2

theorem fetch_series_termination_requests_witness :
    (fetchRequests ([[⟨0, 1⟩, ⟨1, 2⟩]].map PageResp.ok ++
        PageResp.ok [⟨2, 3⟩] :: [PageResp.ok [⟨9, 9⟩]]) 0 2).length = 2 ∧
    fetchLoop 2 ([[⟨0, 1⟩, ⟨1, 2⟩]].map PageResp.ok ++
        PageResp.ok [⟨2, 3⟩] :: [PageResp.ok [⟨9, 9⟩]]) 0 [] =
      fetchLoop 2 ([[⟨0, 1⟩, ⟨1, 2⟩]].map PageResp.ok ++ [PageResp.ok [⟨2, 3⟩]]) 0 [] :=
  let h := fetch_series_termination_requests 2 0 [[⟨0, 1⟩, ⟨1, 2⟩]] [⟨2, 3⟩]
    [PageResp.ok [⟨9, 9⟩]] (by decide) (by decide) (by decide)
  ⟨h.2.1, h.1⟩

/-- C6: a non-success HTTP response makes `fetch_binance_data` fail with the
raised exception carrying the raw response body, with no retry: the failing
request is the last request issued, and later responses are never
consumed. -/
theorem fetch_series_http_error (limit s : Nat) (a : List (List Kline))
    (body : String) (rest : List PageResp)
    (ha : ∀ q ∈ a, q ≠ [] ∧ limit ≤ q.length) :
    fetch_binance_data (a.map PageResp.ok ++ PageResp.fail body :: rest) s limit =
      .error ("Error fetching data: " ++ body) ∧
    fetchLoop limit (a.map PageResp.ok ++ PageResp.fail body :: rest) s [] =
      fetchLoop limit (a.map PageResp.ok ++ [PageResp.fail body]) s [] ∧
    (fetchRequests (a.map PageResp.ok ++ PageResp.fail body :: rest) s limit).length
      = a.length + 1 := by
  refine ⟨?_, ?_, ?_⟩
  · exact fetchLoop_full_snd (· = .error ("Error fetching data: " ++ body))
      a (PageResp.fail body :: rest) s [] ha (fun s2 data2 => rfl)
  · exact fetchLoop_full_prefix a (PageResp.fail body :: rest) [PageResp.fail body]
      s [] ha (fun s2 data2 => rfl)
  · exact fetchLoop_full_reqs_len a (PageResp.fail body :: rest) s [] ha
      (fun s2 data2 => rfl)

theorem fetch_series_http_error_witness :
    fetch_binance_data ([[⟨0, 1⟩, ⟨1, 2⟩]].map PageResp.ok ++
        PageResp.fail "429 banned" :: [PageResp.ok [⟨5, 5⟩]]) 0 2 =
      .error ("Error fetching data: " ++ "429 banned") ∧
    (fetchRequests ([[⟨0, 1⟩, ⟨1, 2⟩]].map PageResp.ok ++
        PageResp.fail "429 banned" :: [PageResp.ok [⟨5, 5⟩]]) 0 2).length = 2 :=
  let h := fetch_series_http_error 2 0 [[⟨0, 1⟩, ⟨1, 2⟩]] "429 banned"
    [PageResp.ok [⟨5, 5⟩]] (by decide)
  ⟨h.1, h.2.2⟩

/-- The hardcoded request budget of `fetch_top_cryptos_hourly_data`. -/
def requests_per_minute : Nat := 4000

/-- Observable actions of the batch driver, in order: a successful fetch
saved to CSV (with its row count), the 60-second rate-limit pause, or a
caught-and-printed per-symbol error. -/
inductive FetchEvent where
  | saved (symbol : String) (rows : Nat)
  | rateLimitPause
  | fetchError (symbol : String) (msg : String)
deriving DecidableEq, Repr

/-- The symbol loop of `fetch_top_cryptos_hourly_data`
(src/fetch_data.py lines 66-82), parameterised by the per-symbol fetch
outcome (the rows of the returned DataFrame, or the raised exception).
Returns the event trace and the final `requests_used` counter.  The counter
grows by `len(df) // 1000 + 1` after a successful save; reaching the budget
emits the 60-second pause and resets the counter; an exception is printed
and leaves the counter unchanged. -/
def fetch_top_cryptos_hourly_data
    (fetchOf : String → Except String (List Kline)) :
    List String → Nat → List FetchEvent × Nat
  | [], used => ([], used)
  | sym :: rest, used =>
    match fetchOf sym with
    | .error e =>
        let r := fetch_top_cryptos_hourly_data fetchOf rest used
        (FetchEvent.fetchError sym e :: r.1, r.2)
    | .ok df =>
        let used2 := used + df.length / 1000 + 1
        if requests_per_minute ≤ used2 then
          let r := fetch_top_cryptos_hourly_data fetchOf rest 0
          (FetchEvent.saved sym df.length :: FetchEvent.rateLimitPause :: r.1, r.2)
        else
          let r := fetch_top_cryptos_hourly_data fetchOf rest used2
          (FetchEvent.saved sym df.length :: r.1, r.2)

/-- The symbol an event belongs to (`none` for the rate-limit pause). -/
def eventSym : FetchEvent → Option String
  | .saved s _ => some s
  | .fetchError s _ => some s
  | .rateLimitPause => none

lemma fetch_top_trace_syms (fetchOf : String → Except String (List Kline)) :
    ∀ (syms : List String) (used : Nat),
      ((fetch_top_cryptos_hourly_data fetchOf syms used).1.filterMap eventSym) = syms := by
  intro syms
  induction syms with
  | nil => intro used; rfl
  | cons sym rest ih =>
    intro used
    simp only [fetch_top_cryptos_hourly_data]
    cases hout : fetchOf sym with
    | error e => simp [List.filterMap_cons, eventSym, ih]
    | ok df =>
      by_cases hb : requests_per_minute ≤ used + df.length / 1000 + 1
      · simp [hb, List.filterMap_cons, eventSym, ih]
      · simp [hb, List.filterMap_cons, eventSym, ih]

lemma fetch_top_error_logged (fetchOf : String → Except String (List Kline)) :
    ∀ (syms : List String) (used : Nat) (sym : String) (e : String),
      sym ∈ syms → fetchOf sym = .error e →
      FetchEvent.fetchError sym e ∈ (fetch_top_cryptos_hourly_data fetchOf syms used).1 := by
  intro syms
  induction syms with
  | nil => intro used sym e hmem; cases hmem
  | cons sym0 rest ih =>
    intro used sym e hmem herr
    simp only [fetch_top_cryptos_hourly_data]
    rcases List.mem_cons.mp hmem with rfl | hmem
    · rw [herr]
      exact List.mem_cons_self _ _
    · cases hout : fetchOf sym0 with
      | error e0 => exact List.mem_cons_of_mem _ (ih used sym e hmem herr)
      | ok df =>
        by_cases hb : requests_per_minute ≤ used + df.length / 1000 + 1
        · simp only [hb, if_true]
          exact List.mem_cons_of_mem _ (List.mem_cons_of_mem _ (ih 0 sym e hmem herr))
        · simp only [hb, if_false]
          exact List.mem_cons_of_mem _ (ih _ sym e hmem herr)

lemma fetch_top_append (fetchOf : String → Except String (List Kline)) :
    ∀ (s1 s2 : List String) (used : Nat),
      fetch_top_cryptos_hourly_data fetchOf (s1 ++ s2) used =
        ((fetch_top_cryptos_hourly_data fetchOf s1 used).1 ++
           (fetch_top_cryptos_hourly_data fetchOf s2
             (fetch_top_cryptos_hourly_data fetchOf s1 used).2).1,
         (fetch_top_cryptos_hourly_data fetchOf s2
           (fetch_top_cryptos_hourly_data fetchOf s1 used).2).2) := by
  intro s1
  induction s1 with
  | nil => intro s2 used; rfl
  | cons sym rest ih =>
    intro s2 used
    cases hout : fetchOf sym with
    | error e =>
      simp only [List.cons_append, fetch_top_cryptos_hourly_data, hout,
        List.append_eq]
      rw [ih]
    | ok df =>
      by_cases hb : requests_per_minute ≤ used + df.length / 1000 + 1
      · simp only [List.cons_append, fetch_top_cryptos_hourly_data, hout,
          if_pos hb, List.append_eq]
        rw [ih]
      · simp only [List.cons_append, fetch_top_cryptos_hourly_data, hout,
          if_neg hb, List.append_eq]
        rw [ih]

lemma fetch_top_counter_lt (fetchOf : String → Except String (List Kline)) :
    ∀ (syms : List String) (used : Nat), used < requests_per_minute →
      (fetch_top_cryptos_hourly_data fetchOf syms used).2 < requests_per_minute := by
  intro syms
  induction syms with
  | nil => intro used h; exact h
  | cons sym rest ih =>
    intro used h
    simp only [fetch_top_cryptos_hourly_data]
    cases hout : fetchOf sym with
    | error e => exact ih used h
    | ok df =>
      by_cases hb : requests_per_minute ≤ used + df.length / 1000 + 1
      · simp only [hb, if_true]
        exact ih 0 (by simp [requests_per_minute])
      · simp only [hb, if_false]
        exact ih _ (by omega)

/-- C7: the batch driver accumulates `len(df) // 1000 + 1` request
equivalents per identifier against the fixed budget; the state entering the
remaining identifiers is the final state of the processed prefix and stays
below the budget; whenever the budget is reached the trace records the
60-second pause right after the save and the counter restarts from zero
before the next identifier. -/
theorem fetch_all_rate_limit (fetchOf : String → Except String (List Kline))
    (s1 s2 : List String) (used : Nat) (sym : String) (df : List Kline)
    (hused : used < requests_per_minute) (hok : fetchOf sym = .ok df) :
    (fetch_top_cryptos_hourly_data fetchOf (s1 ++ s2) used =
      ((fetch_top_cryptos_hourly_data fetchOf s1 used).1 ++
         (fetch_top_cryptos_hourly_data fetchOf s2
           (fetch_top_cryptos_hourly_data fetchOf s1 used).2).1,
       (fetch_top_cryptos_hourly_data fetchOf s2
         (fetch_top_cryptos_hourly_data fetchOf s1 used).2).2)) ∧
    (fetch_top_cryptos_hourly_data fetchOf s1 used).2 < requests_per_minute ∧
    (fetch_top_cryptos_hourly_data fetchOf [sym] used =
      if requests_per_minute ≤ used + df.length / 1000 + 1 then
        ([FetchEvent.saved sym df.length, FetchEvent.rateLimitPause], 0)
      else
        ([FetchEvent.saved sym df.length], used + df.length / 1000 + 1)) := by
  refine ⟨fetch_top_append fetchOf s1 s2 used,
    fetch_top_counter_lt fetchOf s1 used hused, ?_⟩
  by_cases hb : requests_per_minute ≤ used + df.length / 1000 + 1
  · rw [if_pos hb]
    simp only [fetch_top_cryptos_hourly_data, hok, if_pos hb]
  · rw [if_neg hb]
    simp only [fetch_top_cryptos_hourly_data, hok, if_neg hb]

theorem fetch_all_rate_limit_witness :
    (fetch_top_cryptos_hourly_data (fun _ => .ok (List.replicate 5000 ⟨0, 0⟩))
        ["BTCUSDT"] 3995 =
      ([FetchEvent.saved "BTCUSDT" 5000, FetchEvent.rateLimitPause], 0)) ∧
    (fetch_top_cryptos_hourly_data (fun _ => .ok (List.replicate 5000 ⟨0, 0⟩))
        ["ETHUSDT"] 0).2 < requests_per_minute := by
  have h := fetch_all_rate_limit (fun _ => .ok (List.replicate 5000 ⟨0, 0⟩))
    ["ETHUSDT"] [] 3995 "BTCUSDT" (List.replicate 5000 ⟨0, 0⟩)
    (by decide) rfl
  have h2 := fetch_all_rate_limit (fun _ => .ok (List.replicate 5000 ⟨0, 0⟩))
    ["ETHUSDT"] [] 0 "BTCUSDT" (List.replicate 5000 ⟨0, 0⟩)
    (by decide) rfl
  refine ⟨?_, h2.2.1⟩
  rw [h.2.2]
  norm_num [List.length_replicate, requests_per_minute]

/-- A parsed CSV file as pandas presents it to `concatenate_closing_prices`:
presence of the `timestamp` and `close` columns, and the (timestamp, close)
rows. -/
structure Frame where
  hasTimestamp : Bool
  hasClose : Bool
  rows : List (Nat × Int)
deriving DecidableEq, Repr

deriving instance DecidableEq for Except

/-- One directory entry: file name plus the outcome of `pd.read_csv`
(a frame, or the message of the exception it raises). -/
structure CsvFile where
  name : String
  content : Except String Frame
deriving DecidableEq, Repr

/-- `file.endswith(suffix)`: suffix test on the characters. -/
def strEndsWith (s t : String) : Bool :=
  t.data.reverse.isPrefixOf s.data.reverse

/-- Values `latest_start_date` can take: Python `None` (never assigned),
pandas `NaT` (minimum of an empty timestamp column; every ordered
comparison against it is false), or a genuine timestamp. -/
inductive Bound where
  | none
  | nan
  | ts (t : Nat)
deriving DecidableEq, Repr

/-- Pandas strict `>` between start dates: only genuine timestamps compare
as greater; comparisons involving `NaT` are false. -/
def boundGt : Bound → Bound → Bool
  | Bound.ts a, Bound.ts b => decide (b < a)
  | _, _ => false

/-- `df['timestamp'].min()`: `NaT` on an empty column, otherwise the least
element. -/
def minTs : List Nat → Bound
  | [] => Bound.nan
  | x :: xs => Bound.ts (xs.foldl Nat.min x)

/-- One iteration of step 1 of `concatenate_closing_prices`
(src/concat_data.py lines 18-29): a `.csv` file that reads successfully and
has a `timestamp` column updates `latest_start_date` when the latter is
`None` or the file's minimum timestamp is strictly later; read errors are
printed and skipped. -/
def step1 (latest : Bound) (f : CsvFile) : Bound :=
  if strEndsWith f.name ".csv" then
    match f.content with
    | .error _ => latest
    | .ok df =>
      if df.hasTimestamp then
        let start := minTs (df.rows.map Prod.fst)
        if latest = Bound.none || boundGt start latest then start else latest
      else latest
  else latest

/-- `find_common_start`: the `latest_start_date` produced by step 1 over
the directory listing. -/
def find_common_start (files : List CsvFile) : Bound :=
  files.foldl step1 Bound.none

/-- The characters of the fixed pattern `"_hourly.csv"`. -/
def hourlyPat : List Char := "_hourly.csv".data

/-- Left-to-right removal of the non-overlapping occurrences of
`hourlyPat` (the semantics of Python `file.replace("_hourly.csv", "")`),
fuel-indexed to keep the recursion structural. -/
def removeOccsAux : Nat → List Char → List Char
  | 0, _ => []
  | _ + 1, [] => []
  | fuel + 1, c :: rest =>
    if hourlyPat.isPrefixOf (c :: rest) then
      removeOccsAux fuel ((c :: rest).drop hourlyPat.length)
    else c :: removeOccsAux fuel rest

/-- `file.replace("_hourly.csv", "")` on the character list. -/
def removeOccs (l : List Char) : List Char := removeOccsAux l.length l

/-- `crypto_name = file.replace("_hourly.csv", "")`. -/
def cryptoName (name : String) : String := ⟨removeOccs name.data⟩

/-- Modelled from the spec: "derived by stripping a known filename
suffix" — removes one final `_hourly.csv` suffix when present.  Spec-side
definition, to be compared with the source's `cryptoName`. -/
def specStripSuffix (name : String) : String :=
  if strEndsWith name "_hourly.csv" then
    ⟨name.data.take (name.data.length - hourlyPat.length)⟩
  else name

/-- Outcome of one step-2 iteration for one directory entry. -/
inductive FileResult where
  | included (colName : String) (rows : List (Nat × Int))
  | skipped
  | failed (msg : String)
deriving DecidableEq, Repr

/-- One iteration of step 2 of `concatenate_closing_prices`
(src/concat_data.py lines 35-50): `.csv` files that fail to read are
logged and skipped; files lacking `timestamp` or `close` are silently
skipped; otherwise rows are filtered to `timestamp >= latest_start_date`
(all false against `NaT`; comparing the datetime column against `None`
raises, caught by the per-file handler) and the close column is renamed to
the crypto name. -/
def processFile (latest : Bound) (f : CsvFile) : FileResult :=
  if strEndsWith f.name ".csv" then
    match f.content with
    | .error e => .failed e
    | .ok df =>
      if df.hasTimestamp && df.hasClose then
        match latest with
        | Bound.none => .failed "Invalid comparison between datetime64 and NoneType"
        | Bound.nan => .included (cryptoName f.name) []
        | Bound.ts t => .included (cryptoName f.name)
            (df.rows.filter (fun r => decide (t ≤ r.1)))
      else .skipped
  else .skipped

/-- The `all_closing_prices` list of step 2 against a given
`latest_start_date`: column name and filtered rows of every included
file. -/
def includedSeriesWith (latest : Bound) (files : List CsvFile) :
    List (String × List (Nat × Int)) :=
  files.filterMap (fun f =>
    match processFile latest f with
    | .included c r => some (c, r)
    | _ => none)

/-- `concatenate_closing_prices`: step 1 followed by step 2.  The final
`pd.concat(axis=1)` outer join is characterised by `alignRowKeys` (union
of the series' timestamp indices) and `cellValue` (a series' value at a
row key; `none` is the NaN left where a series lacks the timestamp). -/
def concatenate_closing_prices (files : List CsvFile) :
    List (String × List (Nat × Int)) :=
  includedSeriesWith (find_common_start files) files

/-- The row-key set of the combined table: the union of the included
series' timestamp indices, without duplicates. -/
def alignRowKeys (ss : List (String × List (Nat × Int))) : List Nat :=
  ((ss.map (fun s => s.2.map Prod.fst)).flatten).dedup

/-- The combined table's cell for one series at one row key. -/
def cellValue (rows : List (Nat × Int)) (t : Nat) : Option Int :=
  (rows.find? (fun r => decide (r.1 = t))).map Prod.snd

/-- The condition under which a directory entry contributes a column to
the combined table. -/
def includedFile (f : CsvFile) : Bool :=
  strEndsWith f.name ".csv" &&
    match f.content with
    | .ok df => df.hasTimestamp && df.hasClose
    | .error _ => false

/-- The rows of a file's frame ([] when reading raised). -/
def frameRows (f : CsvFile) : List (Nat × Int) :=
  match f.content with
  | .ok df => df.rows
  | .error _ => []

/-- Whether the file reads successfully with a `timestamp` column. -/
def hasTsCol (f : CsvFile) : Bool :=
  match f.content with
  | .ok df => df.hasTimestamp
  | .error _ => false

/-- Whether the file reads successfully with a `close` column. -/
def hasCloseCol (f : CsvFile) : Bool :=
  match f.content with
  | .ok df => df.hasClose
  | .error _ => false

/-- The minimum timestamp of a file's rows (0 when there are none; only
used on files with at least one row). -/
def minF (f : CsvFile) : Nat :=
  match (frameRows f).map Prod.fst with
  | [] => 0
  | x :: xs => xs.foldl Nat.min x

/-- A readable `.csv` file with a `timestamp` column and at least one
row. -/
def goodFile (f : CsvFile) : Bool :=
  strEndsWith f.name ".csv" &&
    match f.content with
    | .ok df => df.hasTimestamp && decide (df.rows ≠ [])
    | .error _ => false

/-- Modelled from the spec: "Result is the maximum of those minimums" —
spec-side value `find_common_start` is compared against. -/
def specMaxOfMins (files : List CsvFile) : Option Nat :=
  match files with
  | [] => Option.none
  | _ => some ((files.map minF).foldl Nat.max 0)

lemma foldl_max_facts : ∀ (l : List Nat) (a : Nat),
    a ≤ l.foldl Nat.max a ∧ (∀ x ∈ l, x ≤ l.foldl Nat.max a) ∧
    (l.foldl Nat.max a = a ∨ l.foldl Nat.max a ∈ l) := by
  intro l
  induction l with
  | nil => exact fun a => ⟨le_refl a, fun x hx => absurd hx (List.not_mem_nil x), Or.inl rfl⟩
  | cons y t ih =>
    intro a
    obtain ⟨h1, h2, h3⟩ := ih (Nat.max a y)
    refine ⟨le_trans (Nat.le_max_left a y) h1, ?_, ?_⟩
    · intro x hx
      rcases List.mem_cons.mp hx with rfl | hx
      · exact le_trans (Nat.le_max_right a x) h1
      · exact h2 x hx
    · rcases h3 with heq | hmem
      · rcases Nat.le_total a y with hm | hm
        · refine Or.inr ?_
          rw [List.foldl_cons, heq]
          have hxy : Nat.max a y = y := Nat.max_eq_right hm
          rw [hxy]
          exact List.mem_cons_self y t
        · refine Or.inl ?_
          rw [List.foldl_cons, heq]
          exact Nat.max_eq_left hm
      · exact Or.inr (List.mem_cons_of_mem y hmem)

lemma step1_good_none {f : CsvFile} (hg : goodFile f = true) :
    step1 Bound.none f = Bound.ts (minF f) := by
  cases f with
  | mk name content =>
    simp only [goodFile, Bool.and_eq_true] at hg
    obtain ⟨hcsv, hrest⟩ := hg
    cases content with
    | error e => simp at hrest
    | ok df =>
      simp only [Bool.and_eq_true, decide_eq_true_eq] at hrest
      obtain ⟨hts, hne⟩ := hrest
      obtain ⟨p, ps, hrows⟩ := List.exists_cons_of_ne_nil hne
      simp [step1, hcsv, hts, minTs, minF, frameRows, hrows]

lemma step1_good_ts {f : CsvFile} (hg : goodFile f = true) (m : Nat) :
    step1 (Bound.ts m) f = Bound.ts (Nat.max m (minF f)) := by
  cases f with
  | mk name content =>
    simp only [goodFile, Bool.and_eq_true] at hg
    obtain ⟨hcsv, hrest⟩ := hg
    cases content with
    | error e => simp at hrest
    | ok df =>
      simp only [Bool.and_eq_true, decide_eq_true_eq] at hrest
      obtain ⟨hts, hne⟩ := hrest
      obtain ⟨p, ps, hrows⟩ := List.exists_cons_of_ne_nil hne
      have hmin : minF ⟨name, Except.ok df⟩ = (ps.map Prod.fst).foldl Nat.min p.1 := by
        simp [minF, frameRows, hrows]
      simp only [step1, hcsv, if_pos, hts, if_true, minTs, hrows, List.map_cons]
      by_cases hlt : m < (ps.map Prod.fst).foldl Nat.min p.1
      · rw [if_pos (by simp [boundGt, hlt]), hmin]
        exact congrArg Bound.ts (Nat.max_eq_right (le_of_lt hlt)).symm
      · rw [if_neg (by simp [boundGt, hlt]), hmin]
        exact congrArg Bound.ts (Nat.max_eq_left (Nat.le_of_not_lt hlt)).symm

lemma foldl_step1_ts {files : List CsvFile}
    (h : ∀ f ∈ files, goodFile f = true) :
    ∀ m, files.foldl step1 (Bound.ts m) =
      Bound.ts ((files.map minF).foldl Nat.max m) := by
  induction files with
  | nil => intro m; rfl
  | cons f fs ih =>
    intro m
    rw [List.foldl_cons, step1_good_ts (h f (List.mem_cons_self f fs)) m,
      ih (fun g hg => h g (List.mem_cons_of_mem f hg)), List.map_cons,
      List.foldl_cons]

/-- C2: over readable `.csv` series that all have a timestamp column and a
minimum timestamp, `find_common_start` returns exactly the maximum over
the series of the series' minimum timestamp. -/
theorem find_common_start_is_max_of_mins (files : List CsvFile) (m : Nat)
    (h : ∀ f ∈ files, goodFile f = true)
    (hm : specMaxOfMins files = some m) :
    find_common_start files = Bound.ts m ∧
    (∀ f ∈ files, minF f ≤ m) ∧ (∃ f ∈ files, minF f = m) := by
  cases files with
  | nil => simp [specMaxOfMins] at hm
  | cons f fs =>
    have hval : (List.map minF (f :: fs)).foldl Nat.max 0 = m := by
      simpa [specMaxOfMins] using hm
    obtain ⟨hle0, hmem_le, hor⟩ := foldl_max_facts (List.map minF (f :: fs)) 0
    refine ⟨?_, ?_, ?_⟩
    · rw [find_common_start, List.foldl_cons,
        step1_good_none (h f (List.mem_cons_self f fs)),
        foldl_step1_ts (fun g hg => h g (List.mem_cons_of_mem f hg))]
      have : (fs.map minF).foldl Nat.max (minF f) =
          (List.map minF (f :: fs)).foldl Nat.max 0 := by
        rw [List.map_cons, List.foldl_cons]
        congr 1
        exact (Nat.max_eq_right (Nat.zero_le _)).symm
      rw [this, hval]
    · intro g hg
      rw [← hval]
      exact hmem_le (minF g) (List.mem_map_of_mem minF hg)
    · rcases hor with heq | hmem
      · rw [hval] at heq
        have : minF f ≤ m := by
          rw [← hval]
          exact hmem_le (minF f) (List.mem_map_of_mem minF (List.mem_cons_self f fs))
        exact ⟨f, List.mem_cons_self f fs, by omega⟩
      · rw [hval] at hmem
        obtain ⟨g, hg, hgm⟩ := List.mem_map.mp hmem
        exact ⟨g, hg, hgm⟩

def demoFilesC2 : List CsvFile :=
  [⟨"T1_hourly.csv", .ok ⟨true, true, [(20210101, 1), (20210105, 2)]⟩⟩,
   ⟨"T2_hourly.csv", .ok ⟨true, true, [(20220601, 3), (20230101, 4)]⟩⟩,
   ⟨"T3_hourly.csv", .ok ⟨true, true, [(20200501, 5)]⟩⟩]

theorem find_common_start_is_max_of_mins_witness :
    find_common_start demoFilesC2 = Bound.ts 20220601 ∧
    (∀ f ∈ demoFilesC2, minF f ≤ 20220601) ∧
    (∃ f ∈ demoFilesC2, minF f = 20220601) :=
  find_common_start_is_max_of_mins demoFilesC2 20220601 (by decide) (by decide)

lemma processFile_included_iff {t : Nat} {f : CsvFile} {c : String}
    {r : List (Nat × Int)} :
    processFile (Bound.ts t) f = FileResult.included c r ↔
      includedFile f = true ∧ c = cryptoName f.name ∧
        r = (frameRows f).filter (fun p => decide (t ≤ p.1)) := by
  cases f with
  | mk name content =>
    by_cases hcsv : strEndsWith name ".csv" = true
    · cases content with
      | error e => simp [processFile, includedFile, hcsv]
      | ok df =>
        by_cases hcols : (df.hasTimestamp && df.hasClose) = true
        · simp only [processFile, includedFile, frameRows, hcsv, if_true, hcols,
            Bool.true_and]
          constructor
          · intro h
            rw [FileResult.included.injEq] at h
            exact ⟨by simp [hcsv, hcols], h.1.symm, h.2.symm⟩
          · rintro ⟨-, rfl, rfl⟩
            rfl
        · simp [processFile, includedFile, hcsv, hcols]
    · simp [processFile, includedFile, hcsv]

lemma mem_includedSeriesWith {latest : Bound} {files : List CsvFile}
    {s : String × List (Nat × Int)} :
    s ∈ includedSeriesWith latest files ↔
      ∃ f ∈ files, processFile latest f = FileResult.included s.1 s.2 := by
  simp only [includedSeriesWith, List.mem_filterMap]
  constructor
  · rintro ⟨f, hf, hres⟩
    refine ⟨f, hf, ?_⟩
    cases hpf : processFile latest f with
    | included c r => rw [hpf] at hres; cases hres; rfl
    | skipped => rw [hpf] at hres; cases hres
    | failed e => rw [hpf] at hres; cases hres
  · rintro ⟨f, hf, hres⟩
    exact ⟨f, hf, by rw [hres]⟩

/-- C3: against a given common start, the combined table's row-key set is
exactly the union over the included series of their timestamps at or after
the common start (rows strictly before it are dropped), without duplicate
rows; and a series' cell at a row key is null exactly when that series
lacks the timestamp, so a timestamp present in a single series yields a
row that is null in every other column. -/
theorem align_and_combine_outer_join (files : List CsvFile) (t u : Nat) :
    (u ∈ alignRowKeys (includedSeriesWith (Bound.ts t) files) ↔
      ∃ f ∈ files, includedFile f = true ∧ t ≤ u ∧
        u ∈ (frameRows f).map Prod.fst) ∧
    (alignRowKeys (includedSeriesWith (Bound.ts t) files)).Nodup ∧
    (∀ s ∈ includedSeriesWith (Bound.ts t) files,
      (cellValue s.2 u = Option.none ↔ u ∉ s.2.map Prod.fst)) := by
  refine ⟨?_, List.nodup_dedup _, ?_⟩
  · rw [alignRowKeys, List.mem_dedup, List.mem_flatten]
    constructor
    · rintro ⟨l, hl, hul⟩
      rcases List.mem_map.mp hl with ⟨s, hs, rfl⟩
      rcases mem_includedSeriesWith.mp hs with ⟨f, hf, hpf⟩
      rcases processFile_included_iff.mp hpf with ⟨hinc, -, hrows⟩
      rcases List.mem_map.mp hul with ⟨p, hp, rfl⟩
      rw [hrows] at hp
      rcases List.mem_filter.mp hp with ⟨hpmem, hple⟩
      exact ⟨f, hf, hinc, by simpa using hple, List.mem_map_of_mem Prod.fst hpmem⟩
    · rintro ⟨f, hf, hinc, htu, hu⟩
      rcases List.mem_map.mp hu with ⟨p, hp, rfl⟩
      have hpf : processFile (Bound.ts t) f =
          FileResult.included (cryptoName f.name)
            ((frameRows f).filter (fun q => decide (t ≤ q.1))) :=
        processFile_included_iff.mpr ⟨hinc, rfl, rfl⟩
      refine ⟨((frameRows f).filter (fun q => decide (t ≤ q.1))).map Prod.fst,
        ?_, ?_⟩
      · exact List.mem_map_of_mem (fun s => s.2.map Prod.fst)
          ((@mem_includedSeriesWith (Bound.ts t) files
            (cryptoName f.name,
              (frameRows f).filter (fun q => decide (t ≤ q.1)))).mpr ⟨f, hf, hpf⟩)
      · exact List.mem_map_of_mem Prod.fst
          (List.mem_filter.mpr ⟨hp, by simpa using htu⟩)
  · intro s hs
    rw [cellValue, Option.map_eq_none', List.find?_eq_none]
    constructor
    · intro hnone hmem
      rcases List.mem_map.mp hmem with ⟨p, hp, rfl⟩
      exact absurd (by simp : decide (p.1 = p.1) = true) (by simpa using hnone p hp)
    · intro hmem p hp hdec
      exact hmem (List.mem_map.mpr ⟨p, hp, by simpa using hdec⟩)

def demoFilesC3 : List CsvFile :=
  [⟨"A_hourly.csv", .ok ⟨true, true, [(100, 10)]⟩⟩,
   ⟨"B_hourly.csv", .ok ⟨true, true, [(100, 7), (150, 8)]⟩⟩]

theorem align_and_combine_outer_join_witness :
    (150 ∈ alignRowKeys (includedSeriesWith (Bound.ts 100) demoFilesC3) ↔
      ∃ f ∈ demoFilesC3, includedFile f = true ∧ 100 ≤ 150 ∧
        150 ∈ (frameRows f).map Prod.fst) ∧
    (alignRowKeys (includedSeriesWith (Bound.ts 100) demoFilesC3)).Nodup ∧
    (∀ s ∈ includedSeriesWith (Bound.ts 100) demoFilesC3,
      (cellValue s.2 150 = Option.none ↔ 150 ∉ s.2.map Prod.fst)) :=
  align_and_combine_outer_join demoFilesC3 100 150

lemma step1_no_ts {f : CsvFile} (h : hasTsCol f = false) :
    ∀ acc, step1 acc f = acc := by
  intro acc
  cases f with
  | mk name content =>
    cases content with
    | error e => simp [step1]
    | ok df =>
      simp only [hasTsCol] at h
      simp [step1, h]

/-- C9: when no readable input file has a timestamp column,
`find_common_start` stays at the Python `None` it was initialised with
(no common start bound is established), and the downstream filtering step
never runs: no file is filtered or included, so the combined list stays
empty. -/
theorem no_timestamp_no_common_start (files : List CsvFile)
    (h : ∀ f ∈ files, hasTsCol f = false) :
    find_common_start files = Bound.none ∧
    includedSeriesWith (find_common_start files) files = [] ∧
    (∀ f ∈ files, ∀ c r, processFile Bound.none f ≠ FileResult.included c r) := by
  have hnone : find_common_start files = Bound.none := by
    rw [find_common_start]
    induction files with
    | nil => rfl
    | cons f fs ih =>
      rw [List.foldl_cons, step1_no_ts (h f (List.mem_cons_self f fs))]
      exact ih (fun g hg => h g (List.mem_cons_of_mem f hg))
  have hproc : ∀ f ∈ files, ∀ c r,
      processFile Bound.none f ≠ FileResult.included c r := by
    intro f hf c r
    cases f with
    | mk name content =>
      cases content with
      | error e =>
        simp only [processFile]
        split <;> simp
      | ok df =>
        have hts : df.hasTimestamp = false := by
          simpa [hasTsCol] using h ⟨name, Except.ok df⟩ hf
        simp only [processFile, hts, Bool.false_and, if_false]
        split <;> simp
  refine ⟨hnone, ?_, hproc⟩
  rw [hnone, includedSeriesWith, List.filterMap_eq_nil_iff]
  intro f hf
  cases hpf : processFile Bound.none f with
  | included c r => exact absurd hpf (hproc f hf c r)
  | skipped => rfl
  | failed e => rfl

def demoFilesC9 : List CsvFile :=
  [⟨"x_hourly.csv", .ok ⟨false, true, [(5, 1)]⟩⟩, ⟨"y.csv", .error "bad file"⟩]

theorem no_timestamp_no_common_start_witness :
    find_common_start demoFilesC9 = Bound.none ∧
    includedSeriesWith (find_common_start demoFilesC9) demoFilesC9 = [] :=
  let h := no_timestamp_no_common_start demoFilesC9 (by decide)
  ⟨h.1, h.2.1⟩

lemma step1_nan (f : CsvFile) : step1 Bound.nan f = Bound.nan := by
  cases f with
  | mk name content =>
    cases content with
    | error e => simp [step1]
    | ok df =>
      simp only [step1]
      split
      · split
        · rw [if_neg]
          simp [boundGt]
        · rfl
      · rfl

lemma step1_ts_mono (f : CsvFile) (k : Nat) :
    ∃ s, step1 (Bound.ts k) f = Bound.ts s ∧ k ≤ s := by
  cases f with
  | mk name content =>
    cases content with
    | error e => exact ⟨k, by simp [step1], le_refl k⟩
    | ok df =>
      simp only [step1]
      by_cases hcsv : strEndsWith name ".csv" = true
      · rw [if_pos hcsv]
        by_cases hts : df.hasTimestamp = true
        · rw [if_pos hts]
          cases hmin : minTs (df.rows.map Prod.fst) with
          | none => exact ⟨k, by simp [boundGt], le_refl k⟩
          | nan => exact ⟨k, by simp [boundGt], le_refl k⟩
          | ts v =>
            by_cases hlt : k < v
            · refine ⟨v, ?_, le_of_lt hlt⟩
              rw [if_pos]
              simp [boundGt, hlt]
            · refine ⟨k, ?_, le_refl k⟩
              rw [if_neg]
              simp [boundGt, hlt]
        · rw [if_neg hts]
          exact ⟨k, rfl, le_refl k⟩
      · rw [if_neg hcsv]
        exact ⟨k, rfl, le_refl k⟩

lemma step1_good_lower {f : CsvFile} (hg : goodFile f = true) (acc : Bound) :
    step1 acc f = Bound.nan ∨
      ∃ k, step1 acc f = Bound.ts k ∧ minF f ≤ k := by
  cases acc with
  | none => exact Or.inr ⟨minF f, step1_good_none hg, le_refl _⟩
  | nan => exact Or.inl (step1_nan f)
  | ts m =>
    refine Or.inr ⟨Nat.max m (minF f), step1_good_ts hg m, ?_⟩
    exact Nat.le_max_right m (minF f)

lemma foldl_step1_preserves (fs : List CsvFile) (b : Nat) :
    ∀ acc, (acc = Bound.nan ∨ ∃ k, acc = Bound.ts k ∧ b ≤ k) →
      (fs.foldl step1 acc = Bound.nan ∨
        ∃ k, fs.foldl step1 acc = Bound.ts k ∧ b ≤ k) := by
  induction fs with
  | nil => intro acc h; exact h
  | cons g gs ih =>
    intro acc h
    rw [List.foldl_cons]
    rcases h with rfl | ⟨k, rfl, hbk⟩
    · exact ih _ (Or.inl (step1_nan g))
    · obtain ⟨s, hs, hks⟩ := step1_ts_mono g k
      exact ih _ (Or.inr ⟨s, hs, le_trans hbk hks⟩)

def demoFilesC10 : List CsvFile :=
  [⟨"A_hourly.csv", .ok ⟨true, true, [(100, 10), (200, 20)]⟩⟩,
   ⟨"B_hourly.csv", .ok ⟨true, false, [(200, 5)]⟩⟩]

/-- C10: a `.csv` file carrying a timestamp column but no close column is
never included in the combined table, yet when readable and non-empty its
minimum timestamp still lower-bounds the computed common start; on the
concrete directory `demoFilesC10` the common start (200, from the
close-less file B) is strictly later than the earliest timestamp (100) of
the only series appearing in the output. -/
theorem ts_only_file_shifts_common_start :
    (∀ (latest : Bound) (f : CsvFile), hasCloseCol f = false →
      ∀ c r, processFile latest f ≠ FileResult.included c r) ∧
    (∀ (files : List CsvFile) (f : CsvFile) (m : Nat), f ∈ files →
      goodFile f = true → find_common_start files = Bound.ts m → minF f ≤ m) ∧
    (find_common_start demoFilesC10 = Bound.ts 200 ∧
      concatenate_closing_prices demoFilesC10 = [("A", [(200, 20)])] ∧
      minF ⟨"A_hourly.csv", .ok ⟨true, true, [(100, 10), (200, 20)]⟩⟩ = 100 ∧
      (100 : Nat) < 200) := by
  refine ⟨?_, ?_, by decide, by decide, by decide, by decide⟩
  · intro latest f hclose c r
    cases f with
    | mk name content =>
      cases content with
      | error e =>
        simp only [processFile]
        split <;> simp
      | ok df =>
        have hc : df.hasClose = false := by simpa [hasCloseCol] using hclose
        simp only [processFile, hc, Bool.and_false, if_false]
        split <;> simp
  · intro files f m hmem hg hfind
    obtain ⟨xs, ys, rfl⟩ := List.append_of_mem hmem
    rw [find_common_start, List.foldl_append, List.foldl_cons] at hfind
    have hstart := step1_good_lower hg (xs.foldl step1 Bound.none)
    have := foldl_step1_preserves ys (minF f)
      (step1 (xs.foldl step1 Bound.none) f)
      (by
        rcases hstart with hnan | ⟨k, hk, hbk⟩
        · exact Or.inl hnan
        · exact Or.inr ⟨k, hk, hbk⟩)
    rcases this with hnan | ⟨k, hk, hbk⟩
    · rw [hfind] at hnan
      cases hnan
    · rw [hfind] at hk
      cases hk
      exact hbk

theorem ts_only_file_shifts_common_start_witness :
    (minF ⟨"B_hourly.csv", Except.ok ⟨true, false, [(200, 5)]⟩⟩ ≤ 200) ∧
    (∀ c r, processFile (Bound.ts 200)
      ⟨"B_hourly.csv", Except.ok ⟨true, false, [(200, 5)]⟩⟩ ≠
        FileResult.included c r) :=
  let h := ts_only_file_shifts_common_start
  ⟨h.2.1 demoFilesC10 ⟨"B_hourly.csv", Except.ok ⟨true, false, [(200, 5)]⟩⟩ 200
      (by decide) (by decide) h.2.2.1,
    h.1 (Bound.ts 200) ⟨"B_hourly.csv", Except.ok ⟨true, false, [(200, 5)]⟩⟩
      (by decide)⟩

lemma step1_read_error (acc : Bound) (nm e : String) :
    step1 acc ⟨nm, Except.error e⟩ = acc := by
  simp only [step1]
  split <;> rfl

lemma processFile_read_error_none (latest : Bound) (nm e : String) :
    (match processFile latest ⟨nm, Except.error e⟩ with
      | FileResult.included c r => some (c, r)
      | _ => none) = Option.none := by
  by_cases hcsv : strEndsWith nm ".csv" = true
  · simp [processFile, hcsv]
  · simp [processFile, hcsv]

/-- C4: a failure on one identifier or one file is caught at the batch-loop
boundary, logged, and the siblings proceed unaffected: the fetch trace
still holds exactly one entry per identifier in order, an error outcome is
recorded as a logged `fetchError` event, and an unreadable file yields a
logged per-file failure while leaving `find_common_start` and the combined
series of the other files unchanged. -/
theorem batch_failures_isolated
    (fetchOf : String → Except String (List Kline)) (syms : List String)
    (used : Nat) (latest : Bound) (xs ys : List CsvFile) (nm e2 : String)
    (hcsv : strEndsWith nm ".csv" = true) :
    ((fetch_top_cryptos_hourly_data fetchOf syms used).1.filterMap eventSym
      = syms) ∧
    (∀ sym e, sym ∈ syms → fetchOf sym = .error e →
      FetchEvent.fetchError sym e ∈
        (fetch_top_cryptos_hourly_data fetchOf syms used).1) ∧
    processFile latest ⟨nm, Except.error e2⟩ = FileResult.failed e2 ∧
    find_common_start (xs ++ ⟨nm, Except.error e2⟩ :: ys) =
      find_common_start (xs ++ ys) ∧
    includedSeriesWith latest (xs ++ ⟨nm, Except.error e2⟩ :: ys) =
      includedSeriesWith latest (xs ++ ys) := by
  refine ⟨fetch_top_trace_syms fetchOf syms used,
    fun sym e hmem herr => fetch_top_error_logged fetchOf syms used sym e hmem herr,
    ?_, ?_, ?_⟩
  · simp [processFile, hcsv]
  · rw [find_common_start, find_common_start, List.foldl_append,
      List.foldl_append, List.foldl_cons, step1_read_error]
  · rw [includedSeriesWith, includedSeriesWith, List.filterMap_append,
      List.filterMap_append, List.filterMap_cons]
    rw [processFile_read_error_none latest nm e2]

def demoFetchOf : String → Except String (List Kline) :=
  fun s => if s = "A" then Except.error "boom" else Except.ok [⟨1, 2⟩]

theorem batch_failures_isolated_witness :
    ((fetch_top_cryptos_hourly_data demoFetchOf ["A", "B"] 0).1.filterMap
      eventSym = ["A", "B"]) ∧
    FetchEvent.fetchError "A" "boom" ∈
      (fetch_top_cryptos_hourly_data demoFetchOf ["A", "B"] 0).1 ∧
    find_common_start
        ([⟨"A_hourly.csv", .ok ⟨true, true, [(1, 2)]⟩⟩] ++
          ⟨"bad_hourly.csv", Except.error "no header"⟩ ::
            [⟨"B_hourly.csv", .ok ⟨true, true, [(3, 4)]⟩⟩]) =
      find_common_start
        ([⟨"A_hourly.csv", .ok ⟨true, true, [(1, 2)]⟩⟩] ++
          [⟨"B_hourly.csv", .ok ⟨true, true, [(3, 4)]⟩⟩]) :=
  let h := batch_failures_isolated demoFetchOf ["A", "B"] 0 Bound.none
    [⟨"A_hourly.csv", .ok ⟨true, true, [(1, 2)]⟩⟩]
    [⟨"B_hourly.csv", .ok ⟨true, true, [(3, 4)]⟩⟩]
    "bad_hourly.csv" "no header" (by decide)
  ⟨h.1, h.2.1 "A" "boom" (by decide) (by decide), h.2.2.2.1⟩

lemma hourlyPat_length : hourlyPat.length = 11 := rfl

lemma removeOccsAux_fuel :
    ∀ (fuel : Nat) (l : List Char), l.length ≤ fuel →
      removeOccsAux fuel l = removeOccs l := by
  intro fuel
  induction fuel using Nat.strong_induction_on with
  | _ fuel ih =>
    intro l hl
    match fuel, l with
    | 0, [] => rfl
    | f + 1, [] => rfl
    | f + 1, c :: rest =>
      simp only [List.length_cons] at hl
      have hdrop : ((c :: rest).drop hourlyPat.length).length ≤ rest.length := by
        rw [List.length_drop, hourlyPat_length, List.length_cons]
        omega
      simp only [removeOccs, List.length_cons, removeOccsAux]
      by_cases hpre : hourlyPat.isPrefixOf (c :: rest) = true
      · rw [if_pos hpre, if_pos hpre,
          ih f (by omega) _ (le_trans hdrop (by omega)),
          ih rest.length (by omega) _ hdrop]
      · rw [if_neg hpre, if_neg hpre, ih f (by omega) rest (by omega),
          ih rest.length (by omega) rest (le_refl _)]

lemma removeOccs_cons (c : Char) (l : List Char) :
    removeOccs (c :: l) =
      if hourlyPat.isPrefixOf (c :: l) then
        removeOccs ((c :: l).drop hourlyPat.length)
      else c :: removeOccs l := by
  have hdrop : ((c :: l).drop hourlyPat.length).length ≤ l.length := by
    rw [List.length_drop, hourlyPat_length, List.length_cons]
    omega
  simp only [removeOccs, List.length_cons, removeOccsAux]
  by_cases hpre : hourlyPat.isPrefixOf (c :: l) = true
  · rw [if_pos hpre, if_pos hpre, removeOccsAux_fuel l.length _ hdrop,
      removeOccsAux_fuel ((c :: l).drop hourlyPat.length).length _ (le_refl _)]
  · rw [if_neg hpre, if_neg hpre, removeOccsAux_fuel l.length l (le_refl _)]

lemma removeOccsAux_length_le :
    ∀ (fuel : Nat) (l : List Char), (removeOccsAux fuel l).length ≤ l.length := by
  intro fuel
  induction fuel with
  | zero => intro l; simp [removeOccsAux]
  | succ f ih =>
    intro l
    cases l with
    | nil => simp [removeOccsAux]
    | cons c rest =>
      simp only [removeOccsAux]
      split
      · calc (removeOccsAux f ((c :: rest).drop hourlyPat.length)).length
            ≤ ((c :: rest).drop hourlyPat.length).length := ih _
          _ ≤ (c :: rest).length := by rw [List.length_drop]; omega
      · simpa using Nat.succ_le_succ (ih rest)

lemma removeOccs_length_le (l : List Char) : (removeOccs l).length ≤ l.length :=
  removeOccsAux_length_le l.length l

lemma removeOccs_fixed_cons {c : Char} {l : List Char}
    (h : removeOccs (c :: l) = c :: l) :
    hourlyPat.isPrefixOf (c :: l) = false ∧ removeOccs l = l := by
  rw [removeOccs_cons] at h
  by_cases hp : hourlyPat.isPrefixOf (c :: l) = true
  · exfalso
    rw [if_pos hp] at h
    have hle : hourlyPat.length ≤ (c :: l).length :=
      List.IsPrefix.length_le (List.isPrefixOf_iff_prefix.mp hp)
    have hlen := removeOccs_length_le ((c :: l).drop hourlyPat.length)
    have hlen2 := congrArg List.length h
    rw [List.length_drop] at hlen
    rw [hourlyPat_length] at hle hlen hlen2
    simp only [List.length_cons] at hle hlen hlen2
    omega
  · rw [if_neg hp] at h
    exact ⟨Bool.not_eq_true _ ▸ Bool.of_not_eq_true hp,
      (List.cons.injEq c (removeOccs l) c l).mp h |>.2⟩

lemma hourlyPat_no_border :
    ∀ k, k < 11 → 0 < k → hourlyPat.drop k ≠ hourlyPat.take (11 - k) := by
  decide

lemma not_prefix_boundary {s : List Char} (h1 : s ≠ []) (h2 : s.length < 11) :
    hourlyPat.isPrefixOf (s ++ hourlyPat) = false := by
  cases hb : hourlyPat.isPrefixOf (s ++ hourlyPat) with
  | false => rfl
  | true =>
    exfalso
    have hpre : hourlyPat <+: s ++ hourlyPat := List.isPrefixOf_iff_prefix.mp hb
    have htake : hourlyPat = (s ++ hourlyPat).take hourlyPat.length :=
      List.prefix_iff_eq_take.mp hpre
    rw [List.take_append_eq_append_take, hourlyPat_length,
      List.take_of_length_le (le_of_lt h2)] at htake
    have hdrop := congrArg (List.drop s.length) htake
    rw [List.drop_left] at hdrop
    exact hourlyPat_no_border s.length h2 (List.length_pos.mpr h1) hdrop

lemma isPrefixOf_append_of_le {s t : List Char}
    (hlen : hourlyPat.length ≤ s.length) :
    hourlyPat.isPrefixOf (s ++ t) = hourlyPat.isPrefixOf s := by
  cases hp : hourlyPat.isPrefixOf s with
  | true =>
    exact List.isPrefixOf_iff_prefix.mpr
      ((List.isPrefixOf_iff_prefix.mp hp).trans (List.prefix_append s t))
  | false =>
    cases hq : hourlyPat.isPrefixOf (s ++ t) with
    | false => rfl
    | true =>
      exfalso
      have hpre : hourlyPat <+: s ++ t := List.isPrefixOf_iff_prefix.mp hq
      have htake : hourlyPat = (s ++ t).take hourlyPat.length :=
        List.prefix_iff_eq_take.mp hpre
      rw [List.take_append_eq_append_take,
        Nat.sub_eq_zero_of_le hlen, List.take_zero, List.append_nil] at htake
      have : hourlyPat.isPrefixOf s = true :=
        List.isPrefixOf_iff_prefix.mpr (List.prefix_iff_eq_take.mpr htake)
      rw [this] at hp
      cases hp

lemma removeOccs_pat_append :
    ∀ (id : List Char), removeOccs id = id →
      removeOccs (id ++ hourlyPat) = id := by
  intro id
  induction id with
  | nil => intro _; decide
  | cons c id2 ih =>
    intro hfix
    obtain ⟨hnp, hfix2⟩ := removeOccs_fixed_cons hfix
    rw [List.cons_append, removeOccs_cons]
    by_cases hlong : hourlyPat.length ≤ (c :: id2).length
    · have hcond : hourlyPat.isPrefixOf (c :: (id2 ++ hourlyPat)) = false := by
        have := isPrefixOf_append_of_le (s := c :: id2) (t := hourlyPat) hlong
        rw [List.cons_append] at this
        rw [this]
        exact hnp
      rw [if_neg (by rw [hcond]; exact Bool.false_ne_true), ih hfix2]
    · have hcond : hourlyPat.isPrefixOf (c :: (id2 ++ hourlyPat)) = false := by
        have := not_prefix_boundary (s := c :: id2) (by simp)
          (by rw [← hourlyPat_length]; omega)
        rw [List.cons_append] at this
        exact this
      rw [if_neg (by rw [hcond]; exact Bool.false_ne_true), ih hfix2]

lemma processFile_included_name {latest : Bound} {f : CsvFile} {c : String}
    {r : List (Nat × Int)}
    (h : processFile latest f = FileResult.included c r) :
    c = cryptoName f.name := by
  cases f with
  | mk name content =>
    by_cases hcsv : strEndsWith name ".csv" = true
    · cases content with
      | error e => simp [processFile, hcsv] at h
      | ok df =>
        by_cases hcols : (df.hasTimestamp && df.hasClose) = true
        · cases latest with
          | none => simp [processFile, hcsv, hcols] at h
          | nan =>
            simp only [processFile, hcsv, if_true, hcols] at h
            rw [FileResult.included.injEq] at h
            exact h.1.symm
          | ts t =>
            simp only [processFile, hcsv, if_true, hcols] at h
            rw [FileResult.included.injEq] at h
            exact h.1.symm
        · simp [processFile, hcsv, hcols] at h
    · simp [processFile, hcsv] at h

/-- C8 counterexample: the file `_hourly.csv_hourly.csv` (identifier
`_hourly.csv` under the `{identifier}_hourly.csv` pattern) is included with
column header `""`, because `str.replace` removes every occurrence of the
substring, whereas stripping the known filename suffix would leave
`_hourly.csv`. -/
theorem column_rename_counterexample :
    (includedSeriesWith (Bound.ts 0)
        [⟨"_hourly.csv_hourly.csv", .ok ⟨true, true, [(0, 1)]⟩⟩]).map Prod.fst
      = [""] ∧
    specStripSuffix "_hourly.csv_hourly.csv" = "_hourly.csv" ∧
    ("" : String) ≠ "_hourly.csv" :=
  ⟨by decide, by decide, by decide⟩

/-- C8 (amended): every included file's close column is renamed to
`file.replace("_hourly.csv", "")`, which removes every occurrence of the
substring rather than only a final suffix; in particular, for the standard
pattern `{identifier}_hourly.csv` with an identifier that the replacement
leaves unchanged, the combined-table column header equals the
identifier. -/
theorem column_rename_replace_all (latest : Bound) (files : List CsvFile) :
    (∀ f ∈ files, ∀ c r, processFile latest f = FileResult.included c r →
      c = cryptoName f.name) ∧
    (∀ id : List Char, removeOccs id = id →
      cryptoName ⟨id ++ hourlyPat⟩ = ⟨id⟩) := by
  refine ⟨fun f _ c r h => processFile_included_name h, ?_⟩
  intro id hid
  exact congrArg String.mk (removeOccs_pat_append id hid)

theorem column_rename_replace_all_witness :
    cryptoName ⟨"BTCUSDT".data ++ hourlyPat⟩ = ⟨"BTCUSDT".data⟩ :=
  (column_rename_replace_all Bound.none []).2 "BTCUSDT".data (by decide)
